import Mathlib

/-!
# Verification of the upscaledb page manager, cursor layer and event log

Shallow embedding of `src/3page_manager/page_manager.cc` (page manager,
btree cursor primitives, merge cursor / dupecache) and
`src/1eventlog/eventlog.cc`.  Machine integers are modelled as `Nat`
(with explicit `% 2 ^ w` where wrap-around matters), the `std::map`
freelist as a sorted association list, and on-disk state-chain pages as
lists of encoded entries.
-/

namespace UpscaleDB

/-! ## `std::map`-style association lists

The page manager keeps its freelist in a `std::map<uint64_t, size_t>`:
keys ascending and unique.  We model it as a sorted association list.
`mapInsert` is `m[k] = v` (overwrites an existing key), `mapErase` is
`m.erase(k)`, `mapFind` is `m.find(k)`. -/

def mapInsert : List (ℕ × ℕ) → ℕ → ℕ → List (ℕ × ℕ)
  | [], k, v => [(k, v)]
  | (k', v') :: rest, k, v =>
      if k < k' then (k, v) :: (k', v') :: rest
      else if k = k' then (k, v) :: rest
      else (k', v') :: mapInsert rest k v

def mapErase : List (ℕ × ℕ) → ℕ → List (ℕ × ℕ)
  | [], _ => []
  | (k', v') :: rest, k => if k = k' then rest else (k', v') :: mapErase rest k

def mapFind : List (ℕ × ℕ) → ℕ → Option ℕ
  | [], _ => none
  | (k', v') :: rest, k => if k = k' then some v' else mapFind rest k

/-! ## Varint pickling

`Pickle::encode_u64` / `Pickle::decode_u64` live in `1base/pickle.h`,
which is not part of the sources.  Modelled from the spec:
"`n` bytes: varint of `base_address / P` (little-endian,
length-prefixed by `n`)" — minimal little-endian base-256 digits. -/

def encodeU64Go : ℕ → ℕ → List ℕ
  | 0, _ => []
  | fuel + 1, u => if u = 0 then [] else u % 256 :: encodeU64Go fuel (u / 256)

def encodeU64 (u : ℕ) : List ℕ :=
  encodeU64Go u u

def decodeU64 : List ℕ → ℕ
  | [] => 0
  | b :: rest => b + 256 * decodeU64 rest

/-! ## Encoding of freelist entries (`store_state_impl`, lines 103-154)

The encoder walks the `free_pages` map in ascending key order; for every
entry it starts a run at the entry's key, then consumes the following
map entries as long as each key is exactly `page_size` past the previous
one and fewer than 15 pages have been gathered.  Note that the encoder
reads only `it->first`; the stored run length `it->second` is never
consulted. -/

def consumeRun (P : ℕ) : ℕ → ℕ → List (ℕ × ℕ) → ℕ × List (ℕ × ℕ)
  | _, pc, [] => (pc, [])
  | current, pc, (k, r) :: rest =>
      if pc < 15 ∧ k = current + P then consumeRun P k (pc + 1) rest
      else (pc, (k, r) :: rest)

theorem consumeRun_rest_length (P : ℕ) :
    ∀ (l : List (ℕ × ℕ)) (current pc : ℕ),
      (consumeRun P current pc l).2.length ≤ l.length := by
  intro l
  induction l with
  | nil => intro current pc; simp [consumeRun]
  | cons e rest ih =>
      intro current pc
      obtain ⟨k, r⟩ := e
      simp only [consumeRun]
      split
      · exact Nat.le_trans (ih k (pc + 1)) (Nat.le_succ _)
      · simp

def groupEntriesGo (P : ℕ) : ℕ → List (ℕ × ℕ) → List (ℕ × ℕ)
  | _, [] => []
  | 0, _ :: _ => []
  | fuel + 1, (k, _) :: rest =>
      (k, (consumeRun P k 1 rest).1) :: groupEntriesGo P fuel (consumeRun P k 1 rest).2

/-- The fuel (the list length) is always sufficient: every round of the
outer encoding loop consumes at least the head entry. -/
def groupEntries (P : ℕ) (l : List (ℕ × ℕ)) : List (ℕ × ℕ) :=
  groupEntriesGo P l.length l

/-- One encoded freelist entry: the header byte
(`run_length << 4 | num_bytes`) together with the varint bytes of
`base_address / page_size`. -/
def encodeEntry (P : ℕ) (e : ℕ × ℕ) : ℕ × List ℕ :=
  (e.2 * 16 + (encodeU64 (e.1 / P)).length, encodeU64 (e.1 / P))

/-- Decoding one entry (`initialize_impl`, lines 268-280):
`page_counter = (*p & 0xf0) >> 4`, the varint bytes give the page id,
and the map receives `free_pages[id * page_size] = page_counter`.
The byte count nibble (`*p & 0x0f`) is implicit in our model because
each entry's bytes are already delimited. -/
def decodeEntry (P : ℕ) (e : ℕ × List ℕ) : ℕ × ℕ :=
  (decodeU64 e.2 * P, e.1 / 16 % 16)

/-! ## Splitting encoded entries over state pages

A page is full as soon as the next entry's maximal size (9 bytes) would
cross `page_size - kSizeofPersistentHeader` (lines 115-121).  The write
position starts at 20 on the first state page (8 bytes
`last_blob_page_id` + 8 bytes overflow pointer + 4 bytes counter) and at
12 on overflow pages.  The fuel fallback packs every remaining entry
into one page; with any realistic page size each page holds at least one
entry, so the fallback is never reached. -/

def takeEntries (cap : ℕ) : ℕ → List (ℕ × List ℕ) → List (ℕ × List ℕ) × List (ℕ × List ℕ)
  | _, [] => ([], [])
  | pos, e :: rest =>
      if cap ≤ pos + 9 then ([], e :: rest)
      else ((e :: (takeEntries cap (pos + 1 + e.2.length) rest).1),
            (takeEntries cap (pos + 1 + e.2.length) rest).2)

def chunkPages (cap pos0 : ℕ) : ℕ → List (ℕ × List ℕ) → List (List (ℕ × List ℕ))
  | _, [] => []
  | 0, e :: rest => [e :: rest]
  | fuel + 1, e :: rest =>
      (takeEntries cap pos0 (e :: rest)).1 ::
        chunkPages cap 12 fuel (takeEntries cap pos0 (e :: rest)).2

/-- The pages covered by a freelist run `(base, run)`:
`base, base + P, …, base + (run-1)·P`. -/
def coverRun (P b r : ℕ) : List ℕ :=
  (List.range r).map (fun i => b + i * P)

/-- The multiset-relevant list of all free pages described by a
freelist. -/
def pagesOf (P : ℕ) (l : List (ℕ × ℕ)) : List ℕ :=
  (l.map (fun e => coverRun P e.1 e.2)).flatten

/-! ## PageManager state -/

/-- The fields of `PageManagerState` (and of the collaborators it
manipulates) that the verified operations read or write.  The on-disk
state chain is modelled as the list of its pages' entry lists together
with the `last_blob_page_id` stored on the first page
(`chainLastBlob`) and the stale overflow pointer the first page may
still carry from an earlier, longer chain
(`firstPageOldOverflow`). -/
structure PMState where
  pageSize : ℕ
  persistentHeaderSize : ℕ
  freePages : List (ℕ × ℕ)
  needsFlush : Bool
  lastBlobPageId : ℕ
  lastBlobPage : Option ℕ
  statePageAddr : Option ℕ
  stateChain : List (List (ℕ × List ℕ))
  chainLastBlob : ℕ
  firstPageOldOverflow : ℕ
  fileSize : ℕ
  cache : List ℕ
  changeset : List ℕ
  headerBlobId : ℕ
  freelistHits : ℕ
  freelistMisses : ℕ
  recoveryEnabled : Bool
  inMemory : Bool
deriving DecidableEq

/-- The body of `store_state_impl` after the state page exists
(lines 69-191).  Overflow pages are allocated with `kIgnoreFreelist`,
so the chain write never touches `free_pages`; the chain page
addresses themselves are abstracted into the list structure of
`stateChain`. -/
def storeStateWrite (s : PMState) : PMState :=
  let s1 :=
    if s.recoveryEnabled then
      { s with changeset := (match s.statePageAddr with | some a => a | none => 0) :: s.changeset }
    else s
  let s2 :=
    if s1.firstPageOldOverflow ≠ 0 then
      { s1 with freePages := mapInsert s1.freePages s1.firstPageOldOverflow 1,
                firstPageOldOverflow := 0 }
    else s1
  if s2.freePages = [] then
    { s2 with stateChain := [[]], chainLastBlob := s2.lastBlobPageId }
  else
    { s2 with
        stateChain :=
          chunkPages (s2.pageSize - s2.persistentHeaderSize) 20
            ((groupEntries s2.pageSize s2.freePages).map (encodeEntry s2.pageSize)).length
            ((groupEntries s2.pageSize s2.freePages).map (encodeEntry s2.pageSize)),
        chainLastBlob := s2.lastBlobPageId }

/-- `store_state_impl` (lines 49-192).  Returns the state page address
(the "blob id") and the updated state. -/
def storeState (s : PMState) : ℕ × PMState :=
  if s.needsFlush = false then
    ((match s.statePageAddr with | some a => a | none => 0), s)
  else
    match s.statePageAddr with
    | none =>
        if s.freePages = [] then (0, { s with needsFlush := false })
        else
          (s.fileSize,
           storeStateWrite
             { s with needsFlush := false, statePageAddr := some s.fileSize,
                      fileSize := s.fileSize + s.pageSize })
    | some addr => (addr, storeStateWrite { s with needsFlush := false })

/-- `initialize_impl` (lines 237-288): clear `free_pages`, fetch the
state page at `pageid`, read `last_blob_page_id` from the first page,
then walk the overflow chain, inserting
`free_pages[id * page_size] = page_counter` for every decoded entry. -/
def restoreState (s : PMState) (pageid : ℕ) : PMState :=
  { s with
      statePageAddr := some pageid,
      lastBlobPageId := s.chainLastBlob,
      freePages :=
        ((s.stateChain.flatten.map (decodeEntry s.pageSize)).foldl
          (fun m e => mapInsert m e.1 e.2) []) }

/-- `maybe_store_state` (lines 195-208): when forced or recovery is
enabled, run `store_state_impl`; if the returned blob id differs from
the header's recorded one, update the header (page address 0) and, with
recovery enabled, enlist the header page in the changeset. -/
def maybeStoreState (s : PMState) (force : Bool) : PMState :=
  if force || s.recoveryEnabled then
    let pr := storeState s
    if pr.1 ≠ s.headerBlobId then
      { pr.2 with
          headerBlobId := pr.1,
          changeset := if pr.2.recoveryEnabled then 0 :: pr.2.changeset else pr.2.changeset }
    else pr.2
  else s

/-- `del_impl` (lines 659-678): a no-op in in-memory mode; otherwise
set `needs_flush` and store `free_pages[page->get_address()] =
page_count`.  The node proxy teardown carries no state we model, and
`maybe_store_state` is deliberately not called. -/
def delImpl (s : PMState) (addr : ℕ) (pageCount : ℕ) : PMState :=
  if s.inMemory then s
  else { s with needsFlush := true, freePages := mapInsert s.freePages addr pageCount }

/-- The allocation flags of `PageManager::alloc`. -/
structure AllocFlags where
  ignoreFreelist : Bool
  clearWithZero : Bool
  disableStoreState : Bool
  readOnly : Bool
deriving DecidableEq

def AllocFlags.none : AllocFlags := ⟨false, false, false, false⟩

/-- `alloc_impl` (lines 350-438), returning the allocated page's
address and the updated state.  With a non-empty freelist (and no
`kIgnoreFreelist`) the FIRST map entry is taken and removed whole —
regardless of its run length — `needs_flush` is set and the hit counter
bumped; otherwise the miss counter is bumped and the file grows by one
page at its end.  `store_page_in_cache` then calls `maybe_store_state`
unless `kDisableStoreState`/`kReadOnly` is given.  Page typing, payload
zeroing and the per-type counters carry no state we model. -/
def allocFinish (addr : ℕ) (s : PMState) (flags : AllocFlags) : ℕ × PMState :=
  let s1 := if s.recoveryEnabled then { s with changeset := addr :: s.changeset } else s
  (addr, if flags.disableStoreState || flags.readOnly then s1 else maybeStoreState s1 false)

def allocImpl (s : PMState) (flags : AllocFlags) : ℕ × PMState :=
  match s.freePages with
  | (addr, _) :: rest =>
      if flags.ignoreFreelist then
        allocFinish s.fileSize
          { s with freelistMisses := s.freelistMisses + 1,
                   fileSize := s.fileSize + s.pageSize,
                   cache := s.fileSize :: s.cache } flags
      else
        allocFinish addr
          { s with freePages := rest, needsFlush := true,
                   freelistHits := s.freelistHits + 1,
                   cache := if addr ∈ s.cache then s.cache else addr :: s.cache } flags
  | [] =>
      allocFinish s.fileSize
        { s with freelistMisses := s.freelistMisses + 1,
                 fileSize := s.fileSize + s.pageSize,
                 cache := s.fileSize :: s.cache } flags

/-- `Freelist::find_run_at_least` behaviour inlined in
`alloc_multiple_blob_pages_impl` (lines 452-455): the first entry in
ascending key order whose run length is at least `n`. -/
def findRunAtLeast (n : ℕ) : List (ℕ × ℕ) → Option (ℕ × ℕ)
  | [] => none
  | e :: rest => if n ≤ e.2 then some e else findRunAtLeast n rest

/-- Result of `alloc_multiple_blob_pages_impl`: address of the first
page, the fetched/allocated pages with their `without_header` flag, and
the updated state. -/
structure MultiAllocResult where
  base : ℕ
  pages : List (ℕ × Bool)
  state : PMState
deriving DecidableEq

/-- `fetch_impl` (lines 303-348) at `flags = 0`, as invoked for the
freelist pages of `alloc_multiple_blob_pages_impl`.  A cache hit only
enlists the page in the changeset (recovery enabled).  A miss
constructs the page, reads it from disk and calls
`store_page_in_cache` — which in turn runs `maybe_store_state` — then
enlists the page in the changeset.  (A nonempty freelist implies
persistent mode, because `del_impl` is a no-op in-memory, so the
in-memory miss path that returns null is not modelled; the fetched
counter carries no state we model.) -/
def fetchImpl (s : PMState) (addr : ℕ) : PMState :=
  if addr ∈ s.cache then
    if s.recoveryEnabled then { s with changeset := addr :: s.changeset } else s
  else
    let s1 := maybeStoreState { s with cache := addr :: s.cache } false
    if s1.recoveryEnabled then { s1 with changeset := addr :: s1.changeset } else s1

/-- `alloc_multiple_blob_pages_impl` (lines 440-497).  `num_pages == 1`
delegates to `alloc_impl`.  Otherwise the first freelist entry with a
run of at least `n` pages is used: the `n` pages are fetched through
`fetch_impl` (first with a header, the following `n-1` without; each
cache miss runs `maybe_store_state` via `store_page_in_cache`, which
with recovery enabled may itself mutate `free_pages`); afterwards the
source re-reads `it->second` through the still-valid map iterator — so
the run length used for the split is whatever the map node holds after
the fetches — inserts the remainder `(it->first + n·P, run − n)` when
the run is longer than `n`, and erases the entry.  Without a suitable
run, `n` fresh pages are allocated via `alloc_impl` with
`kIgnoreFreelist | kDisableStoreState` and `maybe_store_state` runs
once at the end. -/
def allocMultiBlob (s : PMState) (n : ℕ) : MultiAllocResult :=
  if n = 1 then
    let pr := allocImpl s AllocFlags.none
    ⟨pr.1, [(pr.1, false)], pr.2⟩
  else
    match findRunAtLeast n s.freePages with
    | some (b, _) =>
        let pages := (b, false) :: (List.range (n - 1)).map (fun i => (b + (i + 1) * s.pageSize, true))
        let s1 := (List.range n).foldl (fun st i => fetchImpl st (b + i * s.pageSize)) s
        -- `it->second`, re-read after the fetch loop; the node always
        -- exists (`store_state` only inserts), so the default is
        -- unreachable
        let r2 := (mapFind s1.freePages b).getD 0
        let fp1 := if n < r2 then mapInsert s1.freePages (b + n * s.pageSize) (r2 - n)
                   else s1.freePages
        ⟨b, pages, { s1 with freePages := mapErase fp1 b }⟩
    | none =>
        let pages := (List.range n).map (fun i => (s.fileSize + i * s.pageSize, decide (i ≠ 0)))
        let s1 := (List.range n).foldl
          (fun st _ => (allocImpl st ⟨true, false, true, false⟩).2) s
        ⟨s.fileSize, pages, maybeStoreState s1 false⟩

/-- Accumulator of the truncation loop in `reclaim_space_impl`. -/
structure ReclaimAcc where
  freePages : List (ℕ × ℕ)
  cache : List ℕ
  fileSize : ℕ
  truncated : Bool
deriving DecidableEq

/-- The `while (state.free_pages.size() > 1)` loop of
`reclaim_space_impl` (lines 566-581): while more than one freelist
entry remains and an entry is keyed exactly at `file_size - P`, evict
that page from the cache, drop the entry and shrink `file_size` by one
page.  The fuel (the number of entries) bounds the iterations — each
round erases one entry. -/
def reclaimLoop (P : ℕ) : ℕ → ReclaimAcc → ReclaimAcc
  | 0, acc => acc
  | fuel + 1, acc =>
      if 1 < acc.freePages.length then
        match mapFind acc.freePages (acc.fileSize - P) with
        | some _ =>
            reclaimLoop P fuel
              { freePages := mapErase acc.freePages (acc.fileSize - P),
                cache := acc.cache.erase (acc.fileSize - P),
                fileSize := acc.fileSize - P,
                truncated := true }
        | none => acc
      else acc

/-- `reclaim_space_impl` (lines 553-588): resolve `last_blob_page` into
`last_blob_page_id`, run the truncation loop from the device file size,
and if anything was dropped set `needs_flush`, force `store_state` and
only then truncate the device to the shrunken size. -/
def reclaimSpace (s : PMState) : PMState :=
  let s0 :=
    match s.lastBlobPage with
    | some a => { s with lastBlobPageId := a, lastBlobPage := none }
    | none => s
  let acc := reclaimLoop s0.pageSize s0.freePages.length
    ⟨s0.freePages, s0.cache, s0.fileSize, false⟩
  if acc.truncated then
    let s1 := { s0 with freePages := acc.freePages, cache := acc.cache, needsFlush := true }
    let s2 := maybeStoreState s1 true
    { s2 with fileSize := acc.fileSize }
  else { s0 with freePages := acc.freePages, cache := acc.cache }

/-! ## Event log (`src/1eventlog/eventlog.cc`)

`escape` receives the raw argument bytes as `const char *`; on the
targeted platforms `char` is signed, so a byte `b ≥ 0x80` reaches
`isascii` and `sprintf` as the negative value `b - 256`. -/

/-- The value of byte `b` read through a signed `char`. -/
def signedChar (b : ℕ) : ℤ :=
  if b % 256 < 128 then (b % 256 : ℤ) else (b % 256 : ℤ) - 256

/-- `isascii(c)`: true exactly for `0 ≤ c < 128` (glibc:
`(c & ~0x7f) == 0`). -/
def hamIsascii (c : ℤ) : Bool :=
  0 ≤ c && c < 128

def hexChar (n : ℕ) : Char :=
  if n < 10 then Char.ofNat (48 + n) else Char.ofNat (87 + n % 16)

def hexDigitsGo : ℕ → ℕ → List Char
  | 0, _ => []
  | fuel + 1, n => if n = 0 then [] else hexDigitsGo fuel (n / 16) ++ [hexChar (n % 16)]

def hexDigitsAux (n : ℕ) : List Char :=
  hexDigitsGo n n

/-- `printf "%02x"` applied to an `int` argument: the value is
converted to `unsigned int` (mod `2^32`), rendered in lowercase hex,
zero-padded on the left to at least two digits. -/
def printf02x (v : ℤ) : List Char :=
  let u := (v % 4294967296).toNat
  let ds := if u = 0 then ['0'] else hexDigitsAux u
  if ds.length < 2 then '0' :: ds else ds

/-- `EventLog::escape` (lines 151-174): cap the input at 512 bytes,
copy `isascii` bytes verbatim, render the rest via
`sprintf(out, "\x%02x", d[i])`, and wrap the whole in double
quotes. -/
def hamEscape (data : List ℕ) : List Char :=
  '"' ::
    (((data.take 512).map (fun b =>
        if hamIsascii (signedChar b) then [Char.ofNat (b % 256)]
        else '\\' :: 'x' :: printf02x (signedChar b))).flatten
      ++ ['"'])

/-- `EventLog::append` (lines 123-149) emits one line
`TAG(args);\n` per event. -/
def elogLine (tag args : String) : String :=
  tag ++ "(" ++ args ++ ");" ++ "\n"

/-! ## DupeCache and `cursor_update_dupecache`
(`cursor.c` part of the sources, lines 1925-2087) -/

/-- One line of the dupecache: a btree duplicate index or a coupled
txn op (identified by a label). -/
inductive DupeLine where
  | btree (idx : ℕ)
  | txnOp (id : ℕ)
deriving DecidableEq

/-- The op kinds stored in `txn_op_get_flags`. -/
inductive TxnOpKind where
  | insert
  | insertOverwrite
  | insertDuplicate
  | erase
  | nop
deriving DecidableEq

/-- The `HAM_DUPLICATE_INSERT_*` bits of `txn_op_get_orig_flags`
(default = insert last). -/
inductive DupPos where
  | first
  | before
  | after
  | last
deriving DecidableEq

structure TxnOp where
  kind : TxnOpKind
  origPos : DupPos
  referencedDupe : ℕ
  aborted : Bool
  opId : ℕ
deriving DecidableEq

/-- `dupecache_insert` (lines 1835-1863): append when `position`
equals the count, otherwise shift-insert.  (`position > count` is an
assertion failure in the source; `List.insertIdx` then leaves the list
unchanged.) -/
def dupecacheInsert (l : List DupeLine) (pos : ℕ) (d : DupeLine) : List DupeLine :=
  if pos = l.length then l ++ [d] else l.insertIdx pos d

/-- Processing of one txn op inside `cursor_update_dupecache`
(lines 1999-2081).  Ops of aborted transactions are skipped; the
`referenced_dupe` indices are 1-based, and the `u32` subtraction
`ref - 1` in the `INSERT_DUP` case wraps modulo `2^32`. -/
def applyTxnOp (dc : List DupeLine) (op : TxnOp) : List DupeLine :=
  if op.aborted then dc
  else
    match op.kind with
    | .insert => [DupeLine.txnOp op.opId]
    | .insertOverwrite =>
        if op.referencedDupe ≠ 0 then dc.set (op.referencedDupe - 1) (DupeLine.txnOp op.opId)
        else [DupeLine.txnOp op.opId]
    | .insertDuplicate =>
        let ref := (op.referencedDupe + (2 ^ 32 - 1)) % 2 ^ 32
        match op.origPos with
        | .first => dupecacheInsert dc 0 (DupeLine.txnOp op.opId)
        | .before => dupecacheInsert dc ref (DupeLine.txnOp op.opId)
        | .after =>
            if dc.length ≤ (ref + 1) % 2 ^ 32 then dc ++ [DupeLine.txnOp op.opId]
            else dupecacheInsert dc ((ref + 1) % 2 ^ 32) (DupeLine.txnOp op.opId)
        | .last => dc ++ [DupeLine.txnOp op.opId]
    | .erase =>
        if op.referencedDupe ≠ 0 then dc.eraseIdx (op.referencedDupe - 1)
        else []
    | .nop => dc

/-- `cursor_update_dupecache(cursor, CURSOR_BTREE | CURSOR_TXN)` for a
cursor whose btree and txn sides are both coupled to the same key
(lines 1925-2087): if the cache is already filled it is returned
unchanged; otherwise one `Btree{idx=i}` line is appended per entry of
the btree duplicate table (in table order) and then the txn node's op
list is folded over it from oldest to newest. -/
def updateDupecacheBoth (dc : List DupeLine) (btreeTableCount : ℕ) (ops : List TxnOp) :
    List DupeLine :=
  if dc.length ≠ 0 then dc
  else ops.foldl applyTxnOp ((List.range btreeTableCount).map DupeLine.btree)

/-- `cursor_update_dupecache(cursor, CURSOR_TXN)`. -/
def updateDupecacheTxn (dc : List DupeLine) (ops : List TxnOp) : List DupeLine :=
  if dc.length ≠ 0 then dc else ops.foldl applyTxnOp []

/-- `cursor_update_dupecache(cursor, CURSOR_BTREE)`. -/
def updateDupecacheBtree (dc : List DupeLine) (btreeTableCount : ℕ) : List DupeLine :=
  if dc.length ≠ 0 then dc else (List.range btreeTableCount).map DupeLine.btree

/-! ## Merge cursor: `__cursor_move_first_key` (lines 2339-2447)

The btree is abstracted to its ascending key list (keys are `ℕ`; the
collaborator comparator is numeric comparison), the transaction tree to
the outcome of `txn_cursor_move(HAM_CURSOR_FIRST)`: the smallest txn
key, the op it couples to, and the returned status.  The duplicate
information of that one key — the btree duplicate table size and the
txn node's op list — feeds `cursor_get_dupecache_count`. -/

/-- The `ham_status_t` values the cursor layer distinguishes. -/
inductive St where
  | success
  | keyNotFound
  | cursorIsNil
  | erasedInTxn
  | txnConflict
  | limitsReached
deriving DecidableEq

inductive CoupleSide where
  | neither
  | btreeSide
  | txnSide
deriving DecidableEq

structure MergeInput where
  btreeKeys : List ℕ
  txnFirst : Option (ℕ × TxnOpKind × St)
  dupesEnabled : Bool
  btreeTableCount : ℕ
  nodeOps : List TxnOp
deriving DecidableEq

structure FirstKeyResult where
  status : St
  coupledTo : CoupleSide
  btreePos : Option ℕ
  coupledTxnOp : Option TxnOpKind
  dupeCache : List DupeLine
deriving DecidableEq

/-- `cursor_get_dupecache_count` (lines 2579-2594) for a cursor whose
txn side is coupled: updates the dupecache from both sides and returns
its size; with duplicates disabled it reports 0 without touching the
cache. -/
def dupecacheCountBoth (inp : MergeInput) : List DupeLine :=
  if inp.dupesEnabled then updateDupecacheBoth [] inp.btreeTableCount inp.nodeOps
  else []

/-- `__cursor_move_first_key` (lines 2339-2447), faithful to the
branch structure of the source — including the stubbed
`__cursor_move_next_key` (lines 2275-2279), which returns success
without moving anything. -/
def cursorMoveFirstKey (inp : MergeInput) : FirstKeyResult :=
  let txns : St := match inp.txnFirst with
    | none => .keyNotFound
    | some t => t.2.2
  let txnOp : Option TxnOpKind := match inp.txnFirst with
    | none => none
    | some t => some t.2.1
  let txnKey : ℕ := match inp.txnFirst with
    | none => 0
    | some t => t.1
  match inp.btreeKeys with
  | [] =>
      if txns = .keyNotFound then
        ⟨.keyNotFound, .neither, none, txnOp, []⟩
      else if txns = .success then
        ⟨.success, .txnSide, none, txnOp,
          updateDupecacheTxn [] inp.nodeOps⟩
      else
        -- fall-through: `if (btrs==KEY_NOT_FOUND && txns==KEY_ERASED_IN_TXN)
        -- update(TXN); return (txns ? txns : btrs);`
        ⟨txns, .neither, none, txnOp,
          if txns = .erasedInTxn then updateDupecacheTxn [] inp.nodeOps else []⟩
  | k0 :: krest =>
      if txns = .keyNotFound then
        ⟨.success, .btreeSide, some 0, txnOp,
          updateDupecacheBtree [] inp.btreeTableCount⟩
      else if txns = .success ∨ txns = .erasedInTxn ∨ txns = .txnConflict then
        if k0 = txnKey then
          -- both keys equal: couple to the txn op
          let dc := dupecacheCountBoth inp
          if dc.length ≠ 0 then
            if txns = .erasedInTxn then ⟨.erasedInTxn, .txnSide, some 0, txnOp, dc⟩
            else if txns = .success then ⟨.success, .txnSide, some 0, txnOp, dc⟩
            else ⟨txns, .txnSide, some 0, txnOp, dc⟩
          else
            if txns = .erasedInTxn then
              -- `btree_cursor_move(btrc, 0, 0, HAM_CURSOR_NEXT)` —
              -- status discarded — then the `__cursor_move_next_key`
              -- stub, which returns success without repositioning.
              let btPos1 : Option ℕ := if 1 < (k0 :: krest).length then some 1 else none
              ⟨.success, .txnSide, btPos1, txnOp, dc⟩
            else if txns = .txnConflict then
              ⟨.txnConflict, .txnSide, some 0, txnOp, dc⟩
            else
              -- overwritten in txn: `__cursor_move_next_key` stub
              ⟨.success, .txnSide, some 0, txnOp, dc⟩
        else if k0 < txnKey then
          -- couple to btree, then fall through to
          -- `return (txns ? txns : btrs)`
          ⟨if txns ≠ .success then txns else .success, .btreeSide, some 0, txnOp,
            updateDupecacheBtree [] inp.btreeTableCount⟩
        else
          if txns = .txnConflict then ⟨.txnConflict, .neither, some 0, txnOp, []⟩
          else
            ⟨if txns ≠ .success then txns else .success, .txnSide, some 0, txnOp,
              updateDupecacheTxn [] inp.nodeOps⟩
      else
        ⟨txns, .neither, some 0, txnOp, []⟩

/-! ## BTree cursor primitives (`btree_cursor.c` part of the sources)

Leaf pages are `List (List ℕ)` — the keys per leaf, in tree order; the
right sibling of leaf `p` is `p + 1`, the left sibling `p - 1`.  Each
page's intrusive cursor list is a `List ℕ` of cursor identifiers. -/

inductive BtCur where
  | nil
  | coupled (page idx : ℕ)
  | uncoupled (key : ℕ)
deriving DecidableEq

structure BtState where
  cur : BtCur
  lists : List (List ℕ)
deriving DecidableEq

def pageRemoveCursor (ls : List (List ℕ)) (p cid : ℕ) : List (List ℕ) :=
  ls.set p ((ls.getD p []).erase cid)

def pageAddCursor (ls : List (List ℕ)) (p cid : ℕ) : List (List ℕ) :=
  ls.set p (cid :: ls.getD p [])

/-- `my_set_to_nil` (lines 867-893): free the cached key of an
uncoupled cursor, or remove a coupled cursor from its page's list. -/
def mySetToNil (cid : ℕ) (st : BtState) : BtState :=
  match st.cur with
  | .uncoupled _ => { st with cur := .nil }
  | .coupled p _ => ⟨.nil, pageRemoveCursor st.lists p cid⟩
  | .nil => st

/-- Modelled from the spec (§6 collaborator contract): `btree.find`
locates the exact key in the leaves and couples the cursor there;
`HAM_KEY_NOT_FOUND` otherwise.  The body of `btree_find_cursor` is not
part of the sources. -/
def btFindPos (leaves : List (List ℕ)) (k : ℕ) : Option (ℕ × ℕ) :=
  match leaves.findIdx? (fun pl => pl.contains k) with
  | none => none
  | some p =>
      match (leaves.getD p []).indexOf? k with
      | none => none
      | some i => some (p, i)

/-- `bt_cursor_couple` (lines 1135-1182): a `find` on the cached key;
on success the cursor is coupled to the located position (and
registered on that page), on failure it is left nil (`bt_cursor_find`
calls `my_set_to_nil` first). -/
def btCursorCouple (leaves : List (List ℕ)) (cid : ℕ) (st : BtState) (k : ℕ) :
    St × BtState :=
  match btFindPos leaves k with
  | none => (.keyNotFound, { st with cur := .nil })
  | some pi => (.success, ⟨.coupled pi.1 pi.2, pageAddCursor st.lists pi.1 cid⟩)

/-- The coupled-cursor part of `my_move_next` (lines 1039-1073). -/
def moveNextCoupled (leaves : List (List ℕ)) (cid : ℕ) (lists : List (List ℕ))
    (p i : ℕ) : St × BtState :=
  if i + 1 < (leaves.getD p []).length then
    (.success, ⟨.coupled p (i + 1), lists⟩)
  else
    -- uncouple from the page, then follow the right sibling
    if p + 1 < leaves.length then
      (.success, ⟨.coupled (p + 1) 0, pageAddCursor (pageRemoveCursor lists p cid) (p + 1) cid⟩)
    else
      (.cursorIsNil, ⟨.nil, pageRemoveCursor lists p cid⟩)

/-- `my_move_next` (lines 1018-1074). -/
def myMoveNext (leaves : List (List ℕ)) (cid : ℕ) (st : BtState) : St × BtState :=
  match st.cur with
  | .uncoupled k =>
      match btCursorCouple leaves cid st k with
      | (.success, st1) =>
          match st1.cur with
          | .coupled p i => moveNextCoupled leaves cid st1.lists p i
          | _ => (.cursorIsNil, st1)
      | (e, st1) => (e, st1)
  | .nil => (.cursorIsNil, st)
  | .coupled p i => moveNextCoupled leaves cid st.lists p i

/-- The coupled-cursor part of `my_move_previous` (lines 1098-1132).
NOTE (faithful to the source): after fetching the left sibling the
source still reads `btree_node_get_count(node)` from the page the
cursor came from — `node` is not reassigned — so the new index is
`count(old page) - 1`, not `count(sibling) - 1`. -/
def movePreviousCoupled (leaves : List (List ℕ)) (cid : ℕ) (lists : List (List ℕ))
    (p i : ℕ) : St × BtState :=
  if i ≠ 0 then
    (.success, ⟨.coupled p (i - 1), lists⟩)
  else
    if p = 0 then
      (.cursorIsNil, ⟨.nil, pageRemoveCursor lists p cid⟩)
    else
      (.success,
        ⟨.coupled (p - 1) ((leaves.getD p []).length - 1),
         pageAddCursor (pageRemoveCursor lists p cid) (p - 1) cid⟩)

/-- `my_move_previous` (lines 1076-1133). -/
def myMovePrevious (leaves : List (List ℕ)) (cid : ℕ) (st : BtState) : St × BtState :=
  match st.cur with
  | .uncoupled k =>
      match btCursorCouple leaves cid st k with
      | (.success, st1) =>
          match st1.cur with
          | .coupled p i => movePreviousCoupled leaves cid st1.lists p i
          | _ => (.cursorIsNil, st1)
      | (e, st1) => (e, st1)
  | .nil => (.cursorIsNil, st)
  | .coupled p i => movePreviousCoupled leaves cid st.lists p i

/-- `my_move_first` (lines 895-953): nil the cursor, descend along the
leftmost child pointers, fail on a missing or empty root, and couple
to index 0 of the first leaf. -/
def myMoveFirst (leaves : List (List ℕ)) (cid : ℕ) (st : BtState) : St × BtState :=
  let st1 := mySetToNil cid st
  match leaves with
  | [] => (.keyNotFound, st1)
  | l0 :: _ =>
      if l0.isEmpty then (.keyNotFound, st1)
      else (.success, ⟨.coupled 0 0, pageAddCursor st1.lists 0 cid⟩)

/-- `my_move_last` (lines 955-1016): symmetric, coupling to
`count - 1` of the last leaf. -/
def myMoveLast (leaves : List (List ℕ)) (cid : ℕ) (st : BtState) : St × BtState :=
  let st1 := mySetToNil cid st
  match leaves with
  | [] => (.keyNotFound, st1)
  | l0 :: rest =>
      if (leaves.getLastD []).isEmpty then (.keyNotFound, st1)
      else
        (.success,
          ⟨.coupled (l0 :: rest).length.pred ((leaves.getLastD []).length - 1),
           pageAddCursor st1.lists (l0 :: rest).length.pred cid⟩)

/-- The `HAM_CURSOR_*` direction bits passed to `bt_cursor_move`. -/
structure MoveFlags where
  first : Bool
  last : Bool
  next : Bool
  previous : Bool
deriving DecidableEq

def MoveFlags.mkNext : MoveFlags := ⟨false, false, true, false⟩

def MoveFlags.mkPrevious : MoveFlags := ⟨false, false, false, true⟩

/-- `bt_cursor_is_nil`: neither the coupled nor the uncoupled flag is
set. -/
def btCurIsNil (c : BtCur) : Bool :=
  match c with
  | .nil => true
  | _ => false

/-- The flag rewriting and dispatch of `bt_cursor_move`
(lines 1504-1526): a nil cursor turns `NEXT` into `FIRST` and
`PREVIOUS` into `LAST` before dispatching on the flags. -/
def btCursorMoveDispatch (leaves : List (List ℕ)) (cid : ℕ) (st : BtState)
    (flags : MoveFlags) : St × BtState :=
  let flags1 :=
    if btCurIsNil st.cur then
      if flags.next then { flags with next := false, first := true }
      else if flags.previous then { flags with previous := false, last := true }
      else flags
    else flags
  if flags1.first then myMoveFirst leaves cid st
  else if flags1.last then myMoveLast leaves cid st
  else if flags1.next then myMoveNext leaves cid st
  else if flags1.previous then myMovePrevious leaves cid st
  else (.success, st)

/-! ## Helper lemmas: association-list maps -/

theorem mem_mapInsert_self : ∀ (l : List (ℕ × ℕ)) (k v : ℕ), (k, v) ∈ mapInsert l k v := by
  intro l k v
  induction l with
  | nil => simp [mapInsert]
  | cons e rest ih =>
      obtain ⟨k', v'⟩ := e
      simp only [mapInsert]
      split
      · simp
      · split
        · simp
        · simpa using Or.inr ih

theorem mem_of_mem_mapInsert {l : List (ℕ × ℕ)} {k v : ℕ} {e : ℕ × ℕ}
    (h : e ∈ mapInsert l k v) : e = (k, v) ∨ e ∈ l := by
  induction l with
  | nil => simpa [mapInsert] using h
  | cons e' rest ih =>
      obtain ⟨k', v'⟩ := e'
      simp only [mapInsert] at h
      split at h
      · simpa using h
      · split at h
        · rcases List.mem_cons.mp h with h1 | h1
          · exact Or.inl h1
          · exact Or.inr (List.mem_cons_of_mem _ h1)
        · rcases List.mem_cons.mp h with h1 | h1
          · exact Or.inr (h1 ▸ List.mem_cons_self _ _)
          · rcases ih h1 with h2 | h2
            · exact Or.inl h2
            · exact Or.inr (List.mem_cons_of_mem _ h2)

theorem mem_mapErase {l : List (ℕ × ℕ)} {k : ℕ} {e : ℕ × ℕ}
    (h : e ∈ mapErase l k) : e ∈ l := by
  induction l with
  | nil => simp [mapErase] at h
  | cons e' rest ih =>
      obtain ⟨k', v'⟩ := e'
      simp only [mapErase] at h
      split at h
      · exact List.mem_cons_of_mem _ h
      · rcases List.mem_cons.mp h with h1 | h1
        · exact h1 ▸ List.mem_cons_self _ _
        · exact List.mem_cons_of_mem _ (ih h1)

theorem mem_mapErase_of_ne {l : List (ℕ × ℕ)} {k : ℕ} {e : ℕ × ℕ}
    (h : e ∈ l) (hne : e.1 ≠ k) : e ∈ mapErase l k := by
  induction l with
  | nil => simp at h
  | cons e' rest ih =>
      obtain ⟨k', v'⟩ := e'
      simp only [mapErase]
      rcases List.mem_cons.mp h with h1 | h1
      · split
        · subst h1; simp at hne; omega
        · exact h1 ▸ List.mem_cons_self _ _
      · split
        · exact h1
        · exact List.mem_cons_of_mem _ (ih h1)

/-- Inserting a key above everything in the list appends at the end. -/
theorem mapInsert_append_of_lt :
    ∀ (l : List (ℕ × ℕ)) (k v : ℕ), (∀ e ∈ l, e.1 < k) → mapInsert l k v = l ++ [(k, v)] := by
  intro l
  induction l with
  | nil => intro k v _; simp [mapInsert]
  | cons e rest ih =>
      intro k v h
      obtain ⟨k', v'⟩ := e
      have hk' : k' < k := h (k', v') (List.mem_cons_self _ _)
      simp only [mapInsert]
      rw [if_neg (by omega), if_neg (by omega)]
      simp [ih k v (fun e he => h e (List.mem_cons_of_mem _ he))]

theorem foldl_mapInsert_of_sorted :
    ∀ (ds acc : List (ℕ × ℕ)),
      ((acc ++ ds).map Prod.fst).Pairwise (· < ·) →
      ds.foldl (fun m e => mapInsert m e.1 e.2) acc = acc ++ ds := by
  intro ds
  induction ds with
  | nil => intro acc _; simp
  | cons d rest ih =>
      intro acc h
      have hlt : ∀ e ∈ acc, e.1 < d.1 := by
        intro e he
        have := (List.pairwise_append.mp (by simpa using h)).2.2
        exact this e.1 (List.mem_map_of_mem Prod.fst he) d.1 (by simp)
      have h1 : mapInsert acc d.1 d.2 = acc ++ [d] := by
        rw [mapInsert_append_of_lt acc d.1 d.2 hlt]
      calc (d :: rest).foldl (fun m e => mapInsert m e.1 e.2) acc
          = rest.foldl (fun m e => mapInsert m e.1 e.2) (acc ++ [d]) := by
            simp [List.foldl_cons, h1]
        _ = (acc ++ [d]) ++ rest := by
            apply ih
            simpa [List.append_assoc] using h
        _ = acc ++ d :: rest := by simp

/-! ## Helper lemmas: varint pickling -/

theorem decodeU64_encodeU64Go :
    ∀ (fuel u : ℕ), u ≤ fuel → decodeU64 (encodeU64Go fuel u) = u := by
  intro fuel
  induction fuel with
  | zero => intro u h; interval_cases u; simp [encodeU64Go, decodeU64]
  | succ fuel ih =>
      intro u h
      by_cases h0 : u = 0
      · simp [h0, encodeU64Go, decodeU64]
      · simp only [encodeU64Go, h0, if_false, decodeU64]
        rw [ih (u / 256) (by omega)]
        omega

theorem decodeU64_encodeU64 (u : ℕ) : decodeU64 (encodeU64 u) = u :=
  decodeU64_encodeU64Go u u (Nat.le_refl u)

theorem encodeU64Go_length_le :
    ∀ (fuel u k : ℕ), u ≤ fuel → u < 256 ^ k → (encodeU64Go fuel u).length ≤ k := by
  intro fuel
  induction fuel with
  | zero => intro u k _ _; simp [encodeU64Go]
  | succ fuel ih =>
      intro u k h hk
      by_cases h0 : u = 0
      · simp [h0, encodeU64Go]
      · simp only [encodeU64Go, h0, if_false, List.length_cons]
        match k with
        | 0 => simp at hk; omega
        | k' + 1 =>
            have hdiv : u / 256 < 256 ^ k' := by
              rw [Nat.div_lt_iff_lt_mul (by norm_num)]
              calc u < 256 ^ (k' + 1) := hk
                _ = 256 ^ k' * 256 := by ring
            have := ih (u / 256) k' (by omega) hdiv
            omega

theorem encodeU64_length_le (u k : ℕ) (h : u < 256 ^ k) : (encodeU64 u).length ≤ k :=
  encodeU64Go_length_le u u k (Nat.le_refl u) h

/-! ## Helper lemmas: page chunking -/

theorem takeEntries_append (cap : ℕ) :
    ∀ (l : List (ℕ × List ℕ)) (pos : ℕ),
      (takeEntries cap pos l).1 ++ (takeEntries cap pos l).2 = l := by
  intro l
  induction l with
  | nil => intro pos; simp [takeEntries]
  | cons e rest ih =>
      intro pos
      simp only [takeEntries]
      split
      · simp
      · simp [ih (pos + 1 + e.2.length)]

theorem chunkPages_flatten (cap : ℕ) :
    ∀ (fuel : ℕ) (pos0 : ℕ) (l : List (ℕ × List ℕ)),
      (chunkPages cap pos0 fuel l).flatten = l := by
  intro fuel
  induction fuel with
  | zero =>
      intro pos0 l
      cases l <;> simp [chunkPages]
  | succ fuel ih =>
      intro pos0 l
      cases l with
      | nil => simp [chunkPages]
      | cons e rest =>
          simp only [chunkPages, List.flatten_cons]
          rw [ih 12 (takeEntries cap pos0 (e :: rest)).2]
          exact takeEntries_append cap (e :: rest) pos0

/-! ## Helper lemmas: run grouping -/

theorem consumeRun_keys (P : ℕ) :
    ∀ (l : List (ℕ × ℕ)) (current pc : ℕ),
      ∃ m, (consumeRun P current pc l).1 = pc + m ∧
        l.map Prod.fst =
          (List.range m).map (fun i => current + (i + 1) * P) ++
            (consumeRun P current pc l).2.map Prod.fst := by
  intro l
  induction l with
  | nil => intro current pc; exact ⟨0, by simp [consumeRun]⟩
  | cons e rest ih =>
      intro current pc
      obtain ⟨k, r⟩ := e
      by_cases h : pc < 15 ∧ k = current + P
      · obtain ⟨m, hm1, hm2⟩ := ih k (pc + 1)
        refine ⟨m + 1, ?_, ?_⟩
        · simp only [consumeRun, if_pos h]
          omega
        · simp only [consumeRun, if_pos h]
          rw [List.range_succ_eq_map]
          simp only [List.map_cons, List.map_map, List.cons_append]
          congr 1
          · omega
          · rw [hm2]
            congr 1
            apply List.map_congr_left
            intro i _
            simp [Function.comp, h.2]
            ring
      · refine ⟨0, ?_, ?_⟩
        · simp [consumeRun, if_neg h]
        · simp [consumeRun, if_neg h]

theorem consumeRun_le_15 (P : ℕ) :
    ∀ (l : List (ℕ × ℕ)) (current pc : ℕ), pc ≤ 15 → (consumeRun P current pc l).1 ≤ 15 := by
  intro l
  induction l with
  | nil => intro current pc h; simpa [consumeRun] using h
  | cons e rest ih =>
      intro current pc h
      obtain ⟨k, r⟩ := e
      simp only [consumeRun]
      split
      · exact ih k (pc + 1) (by omega)
      · simpa using h

theorem consumeRun_ge (P : ℕ) :
    ∀ (l : List (ℕ × ℕ)) (current pc : ℕ), pc ≤ (consumeRun P current pc l).1 := by
  intro l
  induction l with
  | nil => intro current pc; simp [consumeRun]
  | cons e rest ih =>
      intro current pc
      obtain ⟨k, r⟩ := e
      simp only [consumeRun]
      split
      · exact Nat.le_trans (by omega) (ih k (pc + 1))
      · simp

theorem groupEntriesGo_run_bounds (P : ℕ) :
    ∀ (fuel : ℕ) (l : List (ℕ × ℕ)) (e : ℕ × ℕ),
      e ∈ groupEntriesGo P fuel l → 1 ≤ e.2 ∧ e.2 ≤ 15 := by
  intro fuel
  induction fuel with
  | zero => intro l e he; cases l <;> simp [groupEntriesGo] at he
  | succ fuel ih =>
      intro l e he
      match l with
      | [] => simp [groupEntriesGo] at he
      | (k, r) :: rest =>
          simp only [groupEntriesGo] at he
          rcases List.mem_cons.mp he with h1 | h1
          · subst h1
            exact ⟨consumeRun_ge P rest k 1, consumeRun_le_15 P rest k 1 (by omega)⟩
          · exact ih _ e h1

theorem groupEntries_run_bounds (P : ℕ) (l : List (ℕ × ℕ)) :
    ∀ e ∈ groupEntries P l, 1 ≤ e.2 ∧ e.2 ≤ 15 :=
  fun e he => groupEntriesGo_run_bounds P l.length l e he

theorem coverRun_succ (P b m : ℕ) :
    coverRun P b (1 + m) = b :: (List.range m).map (fun i => b + (i + 1) * P) := by
  have h1 : 1 + m = m + 1 := by omega
  rw [coverRun, h1, List.range_succ_eq_map]
  simp only [List.map_cons, List.map_map]
  refine List.cons_eq_cons.mpr ⟨by omega, ?_⟩
  apply List.map_congr_left
  intro i _
  simp [Function.comp, Nat.succ_eq_add_one]

theorem pagesOf_groupEntriesGo (P : ℕ) :
    ∀ (fuel : ℕ) (l : List (ℕ × ℕ)), l.length ≤ fuel →
      pagesOf P (groupEntriesGo P fuel l) = l.map Prod.fst := by
  intro fuel
  induction fuel with
  | zero =>
      intro l h
      cases l with
      | nil => simp [groupEntriesGo, pagesOf]
      | cons e rest => simp at h
  | succ fuel ih =>
      intro l h
      match l with
      | [] => simp [groupEntriesGo, pagesOf]
      | (k, r) :: rest =>
          obtain ⟨m, hm1, hm2⟩ := consumeRun_keys P rest k 1
          have hlen : (consumeRun P k 1 rest).2.length ≤ fuel := by
            have := consumeRun_rest_length P rest k 1
            simp only [List.length_cons] at h
            omega
          have ihh := ih (consumeRun P k 1 rest).2 hlen
          simp only [groupEntriesGo, pagesOf, List.map_cons, List.flatten_cons] at ihh ⊢
          rw [ihh, hm1, coverRun_succ, hm2]
          simp

theorem pagesOf_groupEntries (P : ℕ) (l : List (ℕ × ℕ)) :
    pagesOf P (groupEntries P l) = l.map Prod.fst :=
  pagesOf_groupEntriesGo P l.length l (Nat.le_refl _)

theorem groupEntriesGo_keys_sublist (P : ℕ) :
    ∀ (fuel : ℕ) (l : List (ℕ × ℕ)),
      List.Sublist ((groupEntriesGo P fuel l).map Prod.fst) (l.map Prod.fst) := by
  intro fuel
  induction fuel with
  | zero => intro l; cases l <;> simp [groupEntriesGo]
  | succ fuel ih =>
      intro l
      match l with
      | [] => simp [groupEntriesGo]
      | (k, r) :: rest =>
          obtain ⟨m, _, hm2⟩ := consumeRun_keys P rest k 1
          simp only [groupEntriesGo, List.map_cons]
          apply List.Sublist.cons₂
          refine List.Sublist.trans (ih (consumeRun P k 1 rest).2) ?_
          rw [hm2]
          exact List.sublist_append_right _ _

theorem groupEntries_keys_sublist (P : ℕ) (l : List (ℕ × ℕ)) :
    List.Sublist ((groupEntries P l).map Prod.fst) (l.map Prod.fst) :=
  groupEntriesGo_keys_sublist P l.length l

theorem pagesOf_of_run_one (P : ℕ) :
    ∀ (l : List (ℕ × ℕ)), (∀ e ∈ l, e.2 = 1) → pagesOf P l = l.map Prod.fst := by
  intro l
  induction l with
  | nil => intro _; simp [pagesOf]
  | cons e rest ih =>
      intro h
      have h1 : e.2 = 1 := h e (List.mem_cons_self _ _)
      simp only [pagesOf, List.map_cons, List.flatten_cons] at ih ⊢
      rw [h1, ih (fun e he => h e (List.mem_cons_of_mem _ he))]
      have hr : List.range 1 = [0] := by decide
      simp [coverRun, hr]

theorem mem_keys_mapInsert {k v x : ℕ} :
    ∀ {l : List (ℕ × ℕ)},
      x ∈ (mapInsert l k v).map Prod.fst ↔ x = k ∨ x ∈ l.map Prod.fst := by
  intro l
  induction l with
  | nil => simp [mapInsert]
  | cons e rest ih =>
      obtain ⟨k', v'⟩ := e
      simp only [mapInsert]
      split
      · simp [or_assoc]
      · split
        · next h =>
            subst h
            simp only [List.map_cons, List.mem_cons]
            tauto
        · simp only [List.map_cons, List.mem_cons, ih]
          tauto

theorem keys_mapInsert_sorted {k v : ℕ} :
    ∀ {l : List (ℕ × ℕ)}, (l.map Prod.fst).Pairwise (· < ·) →
      ((mapInsert l k v).map Prod.fst).Pairwise (· < ·) := by
  intro l
  induction l with
  | nil => intro _; simp [mapInsert]
  | cons e rest ih =>
      intro h
      obtain ⟨k', v'⟩ := e
      simp only [List.map_cons, List.pairwise_cons] at h
      obtain ⟨h1, h2⟩ := h
      simp only [mapInsert]
      split
      · next hlt =>
          simp only [List.map_cons, List.pairwise_cons]
          refine ⟨?_, h1, h2⟩
          intro x hx
          rcases List.mem_cons.mp hx with hx | hx
          · omega
          · have := h1 x hx; omega
      · split
        · next heq =>
            subst heq
            simp only [List.map_cons, List.pairwise_cons]
            exact ⟨h1, h2⟩
        · next hne hgt =>
            have hk : k' < k := by omega
            simp only [List.map_cons, List.pairwise_cons]
            refine ⟨?_, ih h2⟩
            intro x hx
            rcases mem_keys_mapInsert.mp hx with hx | hx
            · omega
            · exact h1 x hx

theorem not_mem_mapErase_sorted {k : ℕ} :
    ∀ {l : List (ℕ × ℕ)}, (l.map Prod.fst).Pairwise (· < ·) →
      ∀ v, (k, v) ∉ mapErase l k := by
  intro l
  induction l with
  | nil => intro _ v h; simp [mapErase] at h
  | cons e rest ih =>
      intro h v hmem
      obtain ⟨k', v'⟩ := e
      simp only [List.map_cons, List.pairwise_cons] at h
      obtain ⟨h1, h2⟩ := h
      simp only [mapErase] at hmem
      split at hmem
      · next heq =>
          subst heq
          have : k ∈ rest.map Prod.fst := List.mem_map_of_mem Prod.fst hmem
          have := h1 k this
          omega
      · next hne =>
          rcases List.mem_cons.mp hmem with h3 | h3
          · exact hne (congrArg Prod.fst h3)
          · exact ih h2 v h3

/-! ## Entry encode/decode round trip -/

theorem decodeEntry_encodeEntry (P : ℕ) (e : ℕ × ℕ)
    (halign : e.1 % P = 0) (hpc : e.2 ≤ 15)
    (hlen : (encodeU64 (e.1 / P)).length < 16) :
    decodeEntry P (encodeEntry P e) = e := by
  obtain ⟨b, pc⟩ := e
  simp only [encodeEntry, decodeEntry] at *
  refine Prod.ext ?_ ?_
  · simp only
    rw [decodeU64_encodeU64]
    exact Nat.div_mul_cancel (Nat.dvd_of_mod_eq_zero halign)
  · simp only
    omega

/-! ## Characterisation of `store_state` under a clean first page -/

theorem storeState_chain (s : PMState) (hnf : s.needsFlush = true)
    (hne : s.freePages ≠ []) (hov : s.firstPageOldOverflow = 0) :
    (storeState s).2.stateChain =
      chunkPages (s.pageSize - s.persistentHeaderSize) 20
        ((groupEntries s.pageSize s.freePages).map (encodeEntry s.pageSize)).length
        ((groupEntries s.pageSize s.freePages).map (encodeEntry s.pageSize)) ∧
    (storeState s).2.chainLastBlob = s.lastBlobPageId ∧
    (storeState s).2.pageSize = s.pageSize ∧
    (storeState s).2.freePages = s.freePages := by
  cases hsp : s.statePageAddr <;>
    simp only [storeState, storeStateWrite, hnf, hsp, hne, hov, Bool.true_eq_false,
      if_false] <;>
    split <;>
    simp [hne, hov]

/-! ## Claim C1: state round trip -/

/-- A concrete, freshly opened page-manager state shared by the
concrete evaluations below.  `P = 16384`; the file holds four pages. -/
def exampleState : PMState :=
  { pageSize := 16384, persistentHeaderSize := 16, freePages := [],
    needsFlush := true, lastBlobPageId := 0, lastBlobPage := none,
    statePageAddr := none, stateChain := [], chainLastBlob := 0,
    firstPageOldOverflow := 0, fileSize := 65536, cache := [], changeset := [],
    headerBlobId := 0, freelistHits := 0, freelistMisses := 0,
    recoveryEnabled := false, inMemory := false }

/-- Claim C1, counterexample.  The claim fails as stated: the encoder of
`store_state_impl` reads only the map keys and never the stored run
lengths, so a single freelist entry `(16384, 3)` — three free pages, as
produced by `del(page@16384, 3)` — is stored as a one-page run and comes
back from `initialize` as `(16384, 1)`: the reconstructed multiset of
free pages `{16384}` differs from the original
`{16384, 32768, 49152}`. -/
theorem c1_counterexample :
    (restoreState (storeState { exampleState with freePages := [(16384, 3)] }).2
        (storeState { exampleState with freePages := [(16384, 3)] }).1).freePages
      = [(16384, 1)] ∧
    (pagesOf 16384
        (restoreState (storeState { exampleState with freePages := [(16384, 3)] }).2
          (storeState { exampleState with freePages := [(16384, 3)] }).1).freePages
      : Multiset ℕ)
      ≠ (pagesOf 16384 [(16384, 3)] : Multiset ℕ) := by
  decide

/-- Claim C1 (amended): for every reachable state whose freelist
entries are all single-page runs (run length 1) — with a pending flush,
a first state page carrying no stale overflow pointer, a non-empty
freelist, keys ascending, page-aligned and in `uint64` range —
`initialize(store_state())` reconstructs the same `last_blob_page_id`
and a freelist covering the same multiset of free pages, re-coalesced
into runs of length between 1 and 15.  (The original claim, quantified
over arbitrary reachable states, fails: entries with run length > 1 are
truncated to runs of 1 by the encoder — see the counterexample.) -/
theorem c1_state_roundtrip_amended (s : PMState)
    (hnf : s.needsFlush = true)
    (hov : s.firstPageOldOverflow = 0)
    (hne : s.freePages ≠ [])
    (hsort : (s.freePages.map Prod.fst).Pairwise (· < ·))
    (halign : ∀ e ∈ s.freePages, e.1 % s.pageSize = 0)
    (hbound : ∀ e ∈ s.freePages, e.1 < 256 ^ 8)
    (hrun : ∀ e ∈ s.freePages, e.2 = 1) :
    (restoreState (storeState s).2 (storeState s).1).lastBlobPageId = s.lastBlobPageId ∧
    (pagesOf s.pageSize (restoreState (storeState s).2 (storeState s).1).freePages
        : Multiset ℕ)
      = (pagesOf s.pageSize s.freePages : Multiset ℕ) ∧
    ∀ e ∈ (restoreState (storeState s).2 (storeState s).1).freePages,
      1 ≤ e.2 ∧ e.2 ≤ 15 := by
  obtain ⟨hchain, hblob, hps, _⟩ := storeState_chain s hnf hne hov
  have hsub := groupEntries_keys_sublist s.pageSize s.freePages
  have hroundtrip : ∀ g ∈ groupEntries s.pageSize s.freePages,
      decodeEntry s.pageSize (encodeEntry s.pageSize g) = g := by
    intro g hg
    have hmem : g.1 ∈ s.freePages.map Prod.fst :=
      hsub.subset (List.mem_map_of_mem Prod.fst hg)
    obtain ⟨e, he, hfst⟩ := List.mem_map.mp hmem
    have h1 : g.1 % s.pageSize = 0 := hfst ▸ halign e he
    have h2 : g.1 < 256 ^ 8 := hfst ▸ hbound e he
    have h3 : g.2 ≤ 15 := (groupEntries_run_bounds s.pageSize s.freePages g hg).2
    refine decodeEntry_encodeEntry s.pageSize g h1 h3 ?_
    have : g.1 / s.pageSize < 256 ^ 8 :=
      Nat.lt_of_le_of_lt (Nat.div_le_self _ _) h2
    have := encodeU64_length_le (g.1 / s.pageSize) 8 this
    omega
  have hdecode : (storeState s).2.stateChain.flatten.map (decodeEntry s.pageSize)
      = groupEntries s.pageSize s.freePages := by
    have h2 : List.map (decodeEntry s.pageSize ∘ encodeEntry s.pageSize)
        (groupEntries s.pageSize s.freePages)
        = List.map id (groupEntries s.pageSize s.freePages) :=
      List.map_congr_left (fun g hg => by simpa using hroundtrip g hg)
    rw [hchain, chunkPages_flatten, List.map_map, h2, List.map_id]
  have hpair : ((groupEntries s.pageSize s.freePages).map Prod.fst).Pairwise (· < ·) :=
    hsort.sublist hsub
  have hfp : (restoreState (storeState s).2 (storeState s).1).freePages
      = groupEntries s.pageSize s.freePages := by
    simp only [restoreState]
    rw [hps, hdecode]
    have := foldl_mapInsert_of_sorted (groupEntries s.pageSize s.freePages) []
      (by simpa using hpair)
    simpa using this
  refine ⟨?_, ?_, ?_⟩
  · simp [restoreState, hblob]
  · rw [hfp, pagesOf_groupEntries, pagesOf_of_run_one s.pageSize s.freePages hrun]
  · rw [hfp]
    exact groupEntries_run_bounds s.pageSize s.freePages

/-- Claim C1, witness for the amended theorem at a concrete state with
two single-page freelist entries. -/
theorem c1_state_roundtrip_amended_witness :
    (restoreState
        (storeState { exampleState with freePages := [(16384, 1), (32768, 1)] }).2
        (storeState { exampleState with freePages := [(16384, 1), (32768, 1)] }).1).lastBlobPageId
      = ({ exampleState with freePages := [(16384, 1), (32768, 1)] } : PMState).lastBlobPageId ∧
    (pagesOf ({ exampleState with freePages := [(16384, 1), (32768, 1)] } : PMState).pageSize
        (restoreState
          (storeState { exampleState with freePages := [(16384, 1), (32768, 1)] }).2
          (storeState { exampleState with freePages := [(16384, 1), (32768, 1)] }).1).freePages
        : Multiset ℕ)
      = (pagesOf ({ exampleState with freePages := [(16384, 1), (32768, 1)] } : PMState).pageSize
          [(16384, 1), (32768, 1)] : Multiset ℕ) ∧
    ∀ e ∈ (restoreState
        (storeState { exampleState with freePages := [(16384, 1), (32768, 1)] }).2
        (storeState { exampleState with freePages := [(16384, 1), (32768, 1)] }).1).freePages,
      1 ≤ e.2 ∧ e.2 ≤ 15 :=
  c1_state_roundtrip_amended { exampleState with freePages := [(16384, 1), (32768, 1)] }
    (by decide) (by decide) (by decide) (by decide) (by decide) (by decide) (by decide)

/-! ## Claim C2: tail reclamation -/

/-- Claim C2, counterexample.  File `[H, X, F, F]` (`P = 16384`,
`file_size = 4·P`) with both trailing pages as freelist entries
`(2P, 1)` and `(3P, 1)`: the loop of `reclaim_space_impl` runs only
`while (state.free_pages.size() > 1)`, so after dropping the entry at
`3P` it stops with one entry left.  The file is truncated to `3·P`,
not `2·P`, and the freelist is not empty. -/
theorem c2_counterexample :
    (reclaimSpace { exampleState with
        freePages := [(32768, 1), (49152, 1)], needsFlush := false }).fileSize = 49152 ∧
    (reclaimSpace { exampleState with
        freePages := [(32768, 1), (49152, 1)], needsFlush := false }).fileSize ≠ 2 * 16384 ∧
    (reclaimSpace { exampleState with
        freePages := [(32768, 1), (49152, 1)], needsFlush := false }).freePages ≠ [] := by
  decide

/-- Claim C2 (amended): on the file `[H, X, F, F]` with freelist
entries `(2P, 1)` and `(3P, 1)`, `reclaim_space` truncates the file by
exactly one page to `file_size = 3·P` and leaves the freelist as
`[(2P, 1)]`, because the loop stops as soon as a single freelist entry
remains.  It sets `needs_flush` and forces a `store_state` before
truncating the device: afterwards the state chain holds exactly the
remaining entry, the header's blob id points at the state page —
allocated at the old end of file, beyond the truncated size — and
`needs_flush` has been consumed again by the store. -/
theorem c2_reclaim_amended :
    (reclaimSpace { exampleState with
        freePages := [(32768, 1), (49152, 1)], needsFlush := false }) =
      { exampleState with
          freePages := [(32768, 1)],
          needsFlush := false,
          statePageAddr := some 65536,
          stateChain := [[(17, [2])]],
          chainLastBlob := 0,
          headerBlobId := 65536,
          fileSize := 49152 } := by
  decide

/-! ## Claim C3: freelist invariant under `del` -/

/-- Claim C3, counterexample.  `del_impl` stores the caller's
`page_count` without any cap: `del(page@16384, 16)` — e.g. freeing a
16-page multi-page blob — creates the freelist entry `(16384, 16)`,
violating the claimed invariant `1 ≤ r ≤ 15`. -/
theorem c3_counterexample :
    (delImpl exampleState 16384 16).freePages = [(16384, 16)] ∧
    ¬ (∀ e ∈ (delImpl exampleState 16384 16).freePages, 1 ≤ e.2 ∧ e.2 ≤ 15) := by
  decide

/-- Claim C3 (amended): `del(page, page_count)` preserves the alignment
and positivity part of the invariant — every entry keeps
`b % P = 0` and `1 ≤ r` — for every `page_count > 0` and aligned page
address, but it does not enforce the upper bound `r ≤ 15` (see the
counterexample; in-memory runs may exceed 15 and are only capped by the
on-disk encoding).  The bound `r ≤ 15` does hold for every entry that
`initialize` decodes, because the run length is read from a 4-bit
nibble. -/
theorem c3_del_amended (s : PMState) (addr cnt : ℕ)
    (hmem : s.inMemory = false)
    (haddr : addr % s.pageSize = 0) (hcnt : 1 ≤ cnt)
    (hinv : ∀ e ∈ s.freePages, e.1 % s.pageSize = 0 ∧ 1 ≤ e.2) :
    (∀ e ∈ (delImpl s addr cnt).freePages, e.1 % s.pageSize = 0 ∧ 1 ≤ e.2) ∧
    (∀ (h : ℕ) (bs : List ℕ), (decodeEntry s.pageSize (h, bs)).2 ≤ 15) := by
  constructor
  · intro e he
    simp only [delImpl, hmem, Bool.false_eq_true, if_false] at he
    rcases mem_of_mem_mapInsert he with h1 | h1
    · subst h1; exact ⟨haddr, hcnt⟩
    · exact hinv e h1
  · intro h bs
    simp only [decodeEntry]
    have : h / 16 % 16 < 16 := Nat.mod_lt _ (by norm_num)
    omega

/-- Claim C3, witness: the amended theorem applied to the example
state, page address `32768`, one page. -/
theorem c3_del_amended_witness :
    (∀ e ∈ (delImpl exampleState 32768 1).freePages,
        e.1 % exampleState.pageSize = 0 ∧ 1 ≤ e.2) ∧
    (∀ (h : ℕ) (bs : List ℕ), (decodeEntry exampleState.pageSize (h, bs)).2 ≤ 15) :=
  c3_del_amended exampleState 32768 1 (by decide) (by decide) (by decide) (by decide)

/-! ## Claim C4: duplicate interleave -/

/-- Claim C4 (confirmed): with btree duplicates `[D1, D2, D3]` (table
indices 0, 1, 2) and one non-aborted `InsertDuplicate` op with original
flag `After` and `referenced_dupe = 1`, `update(Both)` builds the
dupecache `[B:D1, T:Dx, B:D2, B:D3]`: the btree entries are appended in
table order, then the txn op is inserted at position
`referenced_dupe - 1 + 1 = 1`. -/
theorem c4_dupe_interleave (x : ℕ) :
    updateDupecacheBoth [] 3
      [{ kind := .insertDuplicate, origPos := .after, referencedDupe := 1,
         aborted := false, opId := x }]
      = [.btree 0, .txnOp x, .btree 1, .btree 2] := by
  simp only [updateDupecacheBoth, List.length_nil, ne_eq, not_true_eq_false, if_false,
    List.foldl_cons, List.foldl_nil, List.range_succ, List.range_zero, List.map_append,
    List.map_cons, List.map_nil, List.nil_append, applyTxnOp]
  norm_num [dupecacheInsert, List.insertIdx]

/-! ## Claim C5: erased-key skip on first() -/

/-- Claim C5, evaluation at the failing input.  Btree keys `[10, 20]`,
the smallest txn key is also `10`, erased (`KeyErasedInTxn`) by a
non-aborted erase op, no duplicates.  `__cursor_move_first_key` couples
the cursor to the txn op, advances the btree cursor one step, and then
calls the `__cursor_move_next_key` STUB, which returns success without
repositioning anything: the move reports success while the cursor is
still coupled to the erase op — not to the next existing key `20` —
which violates the assertion
`ham_assert(!(txn_op_get_flags(op) & TXN_OP_ERASE))` in the retrieval
step of `cursor_move`. -/
theorem c5_stub_eval :
    cursorMoveFirstKey
        { btreeKeys := [10, 20],
          txnFirst := some (10, TxnOpKind.erase, St.erasedInTxn),
          dupesEnabled := true,
          btreeTableCount := 0,
          nodeOps := [{ kind := TxnOpKind.erase, origPos := DupPos.last,
                        referencedDupe := 0, aborted := false, opId := 7 }] }
      = { status := St.success, coupledTo := CoupleSide.txnSide, btreePos := some 1,
          coupledTxnOp := some TxnOpKind.erase, dupeCache := [] } ∧
    CoupleSide.txnSide ≠ CoupleSide.btreeSide := by
  decide

/-! ## Claim C6: multi-page blob allocation from the freelist -/

/-- Claim C6, counterexample at `n = 1`.  With the freelist
`[(32768, 3)]` the first entry with `run_length ≥ 1` is `(32768, 3)`,
and the claim demands the remainder entry `(32768 + P, 2)` because
`run_length > n`.  But `alloc_multi_blob(1)` delegates to `alloc`,
which removes the whole 3-page run and leaves the freelist empty — no
remainder is kept. -/
theorem c6_counterexample :
    findRunAtLeast 1 [(32768, 3)] = some (32768, 3) ∧
    (allocMultiBlob { exampleState with freePages := [(32768, 3)], needsFlush := false } 1).base
      = 32768 ∧
    (allocMultiBlob { exampleState with freePages := [(32768, 3)], needsFlush := false } 1).state.freePages
      = [] ∧
    (32768 + 1 * 16384, 3 - 1) ∉
      (allocMultiBlob { exampleState with freePages := [(32768, 3)], needsFlush := false } 1).state.freePages := by
  decide

theorem findRunAtLeast_mem {n : ℕ} :
    ∀ {l : List (ℕ × ℕ)} {e : ℕ × ℕ}, findRunAtLeast n l = some e → e ∈ l := by
  intro l
  induction l with
  | nil => intro e h; simp [findRunAtLeast] at h
  | cons e' rest ih =>
      intro e h
      simp only [findRunAtLeast] at h
      split at h
      · exact (Option.some_inj.mp h) ▸ List.mem_cons_self _ _
      · exact List.mem_cons_of_mem _ (ih h)

theorem findRunAtLeast_mapFind {n b r : ℕ} :
    ∀ {l : List (ℕ × ℕ)}, (l.map Prod.fst).Nodup →
      findRunAtLeast n l = some (b, r) → mapFind l b = some r := by
  intro l
  induction l with
  | nil => intro _ h; simp [findRunAtLeast] at h
  | cons e rest ih =>
      intro hnodup h
      obtain ⟨k, v⟩ := e
      simp only [List.map_cons, List.nodup_cons] at hnodup
      simp only [findRunAtLeast] at h
      simp only [mapFind]
      split at h
      · obtain ⟨hb, hr⟩ := Prod.mk.injEq .. ▸ Option.some_inj.mp h
        rw [if_pos hb.symm, hr]
      · have hmem : b ∈ rest.map Prod.fst :=
          List.mem_map_of_mem Prod.fst (findRunAtLeast_mem h)
        rw [if_neg (fun hbk : b = k => hnodup.1 (hbk ▸ hmem))]
        exact ih hnodup.2 h

/-- With recovery disabled, `fetch_impl` at `flags = 0` touches only
the cache (and no changeset): `maybe_store_state` does nothing. -/
theorem fetchImpl_fields (s : PMState) (addr : ℕ) (hrec : s.recoveryEnabled = false) :
    (fetchImpl s addr).freePages = s.freePages ∧
    (fetchImpl s addr).pageSize = s.pageSize ∧
    (fetchImpl s addr).recoveryEnabled = false := by
  simp only [fetchImpl, maybeStoreState, hrec]
  split <;> simp [hrec]

theorem foldl_fetchImpl_fields (f : ℕ → ℕ) :
    ∀ (l : List ℕ) (s : PMState), s.recoveryEnabled = false →
      (l.foldl (fun st i => fetchImpl st (f i)) s).freePages = s.freePages ∧
      (l.foldl (fun st i => fetchImpl st (f i)) s).pageSize = s.pageSize ∧
      (l.foldl (fun st i => fetchImpl st (f i)) s).recoveryEnabled = false := by
  intro l
  induction l with
  | nil => intro s hrec; exact ⟨rfl, rfl, hrec⟩
  | cons i rest ih =>
      intro s hrec
      obtain ⟨h1, h2, h3⟩ := fetchImpl_fields s (f i) hrec
      obtain ⟨g1, g2, g3⟩ := ih (fetchImpl s (f i)) h3
      exact ⟨g1.trans h1, g2.trans h2, g3⟩

/-- Claim C6 (amended): with recovery disabled (so that the
`maybe_store_state` run by `fetch_impl` on every cache miss is inert)
and for `n ≥ 2` — `alloc_multi_blob(1)` instead delegates to `alloc`,
which consumes the whole first entry without splitting — if the first
ascending freelist entry with `run_length ≥ n` is `(b, r)`, then
`alloc_multi_blob(n)` returns the page at `b`, marks exactly the `n-1`
following fetched pages `without_header`, and the new freelist is the
old one with the entry at `b` erased and, exactly when `r > n`, the
remainder `(b + n·P, r − n)` inserted: the entry at `b` is gone and
the remainder entry is present iff `r > n`. -/
theorem c6_alloc_multi_amended (s : PMState) (n b r : ℕ)
    (hn : 2 ≤ n) (hP : 0 < s.pageSize)
    (hfind : findRunAtLeast n s.freePages = some (b, r))
    (hsort : (s.freePages.map Prod.fst).Pairwise (· < ·))
    (hpos : ∀ e ∈ s.freePages, 1 ≤ e.2)
    (hrec : s.recoveryEnabled = false) :
    (allocMultiBlob s n).base = b ∧
    (allocMultiBlob s n).pages =
      (b, false) :: (List.range (n - 1)).map (fun i => (b + (i + 1) * s.pageSize, true)) ∧
    (allocMultiBlob s n).state.freePages =
      mapErase (if n < r then mapInsert s.freePages (b + n * s.pageSize) (r - n)
                else s.freePages) b ∧
    (∀ v, (b, v) ∉ (allocMultiBlob s n).state.freePages) ∧
    (n < r ↔ (b + n * s.pageSize, r - n) ∈ (allocMultiBlob s n).state.freePages) := by
  have hn1 : n ≠ 1 := by omega
  obtain ⟨hfold, _, _⟩ :=
    foldl_fetchImpl_fields (fun i => b + i * s.pageSize) (List.range n) s hrec
  have hnodup : (s.freePages.map Prod.fst).Nodup :=
    hsort.imp (fun h => Nat.ne_of_lt h)
  have hr2 : (mapFind ((List.range n).foldl
      (fun st i => fetchImpl st (b + i * s.pageSize)) s).freePages b).getD 0 = r := by
    rw [hfold, findRunAtLeast_mapFind hnodup hfind]
    rfl
  have hfp : (allocMultiBlob s n).state.freePages =
      mapErase (if n < r then mapInsert s.freePages (b + n * s.pageSize) (r - n)
                else s.freePages) b := by
    simp only [allocMultiBlob, if_neg hn1, hfind]
    rw [hr2, hfold]
  refine ⟨by simp [allocMultiBlob, hn1, hfind], by simp [allocMultiBlob, hn1, hfind],
    hfp, ?_, ?_⟩
  · intro v
    rw [hfp]
    split
    · exact not_mem_mapErase_sorted (keys_mapInsert_sorted hsort) v
    · exact not_mem_mapErase_sorted hsort v
  · rw [hfp]
    constructor
    · intro hlt
      rw [if_pos hlt]
      refine mem_mapErase_of_ne (mem_mapInsert_self _ _ _) ?_
      simp only
      have : 0 < n * s.pageSize := Nat.mul_pos (by omega) hP
      omega
    · intro hmem
      by_contra hge
      rw [if_neg hge] at hmem
      have h1 := mem_mapErase hmem
      have h2 := hpos _ h1
      simp only at h2
      omega

/-- Claim C6, witness for the amended theorem: `del(A, 3)` style entry
`(32768, 3)`, then `alloc_multi_blob(2)` returns `32768` and leaves the
remainder `(32768 + 2·P, 1)`. -/
theorem c6_alloc_multi_amended_witness :
    (allocMultiBlob { exampleState with freePages := [(32768, 3)], needsFlush := false } 2).base
        = 32768 ∧
    (allocMultiBlob { exampleState with freePages := [(32768, 3)], needsFlush := false } 2).pages =
      (32768, false) :: (List.range (2 - 1)).map
        (fun i => (32768 + (i + 1) *
          ({ exampleState with freePages := [(32768, 3)], needsFlush := false } : PMState).pageSize, true)) ∧
    (allocMultiBlob { exampleState with freePages := [(32768, 3)], needsFlush := false } 2).state.freePages =
      mapErase (if 2 < 3 then
          mapInsert [(32768, 3)]
            (32768 + 2 * ({ exampleState with freePages := [(32768, 3)], needsFlush := false } : PMState).pageSize)
            (3 - 2)
        else [(32768, 3)]) 32768 ∧
    (∀ v, (32768, v) ∉
      (allocMultiBlob { exampleState with freePages := [(32768, 3)], needsFlush := false } 2).state.freePages) ∧
    (2 < 3 ↔ (32768 + 2 * ({ exampleState with freePages := [(32768, 3)], needsFlush := false } : PMState).pageSize, 3 - 2) ∈
      (allocMultiBlob { exampleState with freePages := [(32768, 3)], needsFlush := false } 2).state.freePages) :=
  c6_alloc_multi_amended { exampleState with freePages := [(32768, 3)], needsFlush := false }
    2 32768 3 (by decide) (by decide) (by decide) (by decide) (by decide) (by decide)

/-! ## Claim C7: alloc/del round trip -/

/-- Claim C7 (confirmed): starting from an otherwise empty freelist
(recovery disabled, persistent mode), `del(page@addr, 1)` followed by
`alloc` without `IgnoreFreelist` returns the same address, leaves the
freelist empty again, keeps `needs_flush` set and increments the
freelist hit counter. -/
theorem c7_alloc_del_roundtrip (s : PMState) (addr : ℕ)
    (h0 : s.freePages = []) (h1 : s.inMemory = false) (h2 : s.recoveryEnabled = false) :
    (allocImpl (delImpl s addr 1) AllocFlags.none).1 = addr ∧
    (allocImpl (delImpl s addr 1) AllocFlags.none).2.freePages = [] ∧
    (allocImpl (delImpl s addr 1) AllocFlags.none).2.needsFlush = true ∧
    (allocImpl (delImpl s addr 1) AllocFlags.none).2.freelistHits = s.freelistHits + 1 := by
  simp [delImpl, allocImpl, allocFinish, maybeStoreState, mapInsert, AllocFlags.none,
    h0, h1, h2]

/-- Claim C7, witness at the example state and address `32768`. -/
theorem c7_alloc_del_roundtrip_witness :
    (allocImpl (delImpl exampleState 32768 1) AllocFlags.none).1 = 32768 ∧
    (allocImpl (delImpl exampleState 32768 1) AllocFlags.none).2.freePages = [] ∧
    (allocImpl (delImpl exampleState 32768 1) AllocFlags.none).2.needsFlush = true ∧
    (allocImpl (delImpl exampleState 32768 1) AllocFlags.none).2.freelistHits =
      exampleState.freelistHits + 1 :=
  c7_alloc_del_roundtrip exampleState 32768 (by decide) (by decide) (by decide)

/-! ## Claim C8: BTreeCursor next/previous transitions -/

/-- Claim C8, evaluation at the failing input.  Leaves
`[[10, 20, 30], [40, 50]]`; cursor 7 coupled to `(page 1, index 0)`.
`my_move_previous` removes the cursor from page 1 and follows the left
sibling, but couples to index `count(node) - 1` where `node` still
refers to the page the cursor left (2 entries), not the sibling
(3 entries): the cursor lands on `(page 0, index 1)` — key `20` —
instead of the last entry `(page 0, index 2)` — key `30` — contradicting
the source's own comment "couple this cursor to the highest key in this
page". -/
theorem c8_move_previous_eval :
    myMovePrevious [[10, 20, 30], [40, 50]] 7 ⟨.coupled 1 0, [[], [7]]⟩
      = (.success, ⟨.coupled 0 1, [[7], []]⟩) ∧
    (([[10, 20, 30], [40, 50]] : List (List ℕ)).getD 0 []).length - 1 = 2 ∧
    (1 : ℕ) ≠ 2 := by
  decide

/-! ## Claim C9: Nil-cursor redirection in `bt_cursor_move` -/

/-- Claim C9 (confirmed): at the `bt_cursor_move` entry point a nil
cursor rewrites `HAM_CURSOR_NEXT` into `HAM_CURSOR_FIRST` and
`HAM_CURSOR_PREVIOUS` into `HAM_CURSOR_LAST` before dispatch, so the
dispatch coincides with `my_move_first` / `my_move_last`; in
particular, moving next on a nil cursor over a non-empty tree couples
to the first entry with success instead of returning
`CursorIsNil`. -/
theorem c9_nil_redirect :
    (∀ (leaves : List (List ℕ)) (cid : ℕ) (ls : List (List ℕ)),
      btCursorMoveDispatch leaves cid ⟨.nil, ls⟩ MoveFlags.mkNext
        = myMoveFirst leaves cid ⟨.nil, ls⟩) ∧
    (∀ (leaves : List (List ℕ)) (cid : ℕ) (ls : List (List ℕ)),
      btCursorMoveDispatch leaves cid ⟨.nil, ls⟩ MoveFlags.mkPrevious
        = myMoveLast leaves cid ⟨.nil, ls⟩) ∧
    (∀ (l0 rest : List (List ℕ)) (k : ℕ) (ks : List ℕ) (cid : ℕ) (ls : List (List ℕ)),
      l0 = (k :: ks) :: rest →
      (btCursorMoveDispatch l0 cid ⟨.nil, ls⟩ MoveFlags.mkNext).1 = .success ∧
      (btCursorMoveDispatch l0 cid ⟨.nil, ls⟩ MoveFlags.mkNext).2.cur = .coupled 0 0) := by
  refine ⟨fun leaves cid ls => rfl, fun leaves cid ls => rfl, ?_⟩
  intro l0 rest k ks cid ls h
  subst h
  simp [btCursorMoveDispatch, MoveFlags.mkNext, btCurIsNil, myMoveFirst, mySetToNil]

/-- Claim C9, witness: the redirection theorem applied at the one-leaf
tree `[[5]]`. -/
theorem c9_nil_redirect_witness :
    (btCursorMoveDispatch [[5]] 1 ⟨.nil, [[]]⟩ MoveFlags.mkNext).1 = .success ∧
    (btCursorMoveDispatch [[5]] 1 ⟨.nil, [[]]⟩ MoveFlags.mkNext).2.cur = .coupled 0 0 :=
  c9_nil_redirect.2.2 [[5]] [] 5 [] 1 [[]] rfl

/-! ## Claim C10: event-log argument escaping -/

/-- Claim C10, evaluation at the failing input.  `escape` caps at 512
bytes, copies ASCII unchanged and wraps in double quotes, but a
non-ASCII byte is NOT rendered as two hex digits: `d[i]` is a signed
`char`, so byte `0xFF` reaches `sprintf("\x%02x", …)` as the `int`
`-1` and prints as `\xffffffff` — eight hex digits from the
sign-extended 32-bit value. -/
theorem c10_escape_eval :
    hamEscape [255] = "\"\\xffffffff\"".toList ∧
    hamEscape [65, 66] = "\"AB\"".toList ∧
    (hamEscape (List.replicate 600 65)).length = 514 ∧
    elogLine "f" "1, 2" = "f(1, 2);\n" := by
  refine ⟨by decide, by decide, ?_, by decide⟩
  set_option maxRecDepth 4000 in decide

end UpscaleDB
